import Mathlib

/-!
Verification of the iterable containment and ordering engine of the
speculoos assertion library (src/iter.rs).

The Rust matchers signal failure by raising a test panic carrying a
structured failure record ("expected" and "actual" descriptions).  The
shallow embedding models each matcher as a pure function on `List α`
returning either a pass outcome or the failure record it would have
raised; iterator subjects are materialized finite lists, and Rust's
`PartialEq` on elements is modelled by decidable equality.
-/

namespace Speculoos

open scoped List

variable {α : Type u} {β : Type v}

/-- Outcome of `check_iterator_contains`: either a silent pass, or the
failure record handed to `panic_unmatched` (expected value, the fully
materialized actual elements, and the requested polarity). -/
inductive ContainsOutcome (α : Type u) where
  | pass : ContainsOutcome α
  | fail (expected_value : α) (actual : List α) (should_contain : Bool) : ContainsOutcome α
  deriving DecidableEq

/-- The scan loop of `check_iterator_contains` (src/iter.rs:266-275): walk the
whole subject, set `contains_value` when an element equals the expected value,
and push every visited element onto `actual`. -/
def containsLoop [DecidableEq α] (expected : α) : List α → Bool → List α → Bool × List α
  | [], contains_value, actual => (contains_value, actual)
  | x :: xs, contains_value, actual =>
      containsLoop expected xs (if expected = x then true else contains_value) (actual ++ [x])

/-- Embedding of `check_iterator_contains` (src/iter.rs:255-280): scan the full
subject, then fail iff the found-flag differs from the requested polarity. -/
def check_iterator_contains [DecidableEq α] (actual_iter : List α) (expected_value : α)
    (should_contain : Bool) : ContainsOutcome α :=
  let r := containsLoop expected_value actual_iter false []
  if r.1 ≠ should_contain then
    ContainsOutcome.fail expected_value r.2 should_contain
  else
    ContainsOutcome.pass

/-- Embedding of the polarity word chosen by `panic_unmatched`
(src/iter.rs:398-404). -/
def panic_unmatched_condition (should_contain : Bool) : String :=
  if should_contain then " " else " not "

/-- Embedding of the "expected" description built by `panic_unmatched`
(src/iter.rs:406-407), with the element already rendered to a string. -/
def panic_unmatched_expected (should_contain : Bool) (rendered : String) : String :=
  "iterator to" ++ panic_unmatched_condition should_contain ++ "contain <" ++ rendered ++ ">"

/-- Instrumented embedding of the `matching_contains` loop (src/iter.rs:204-220):
the first component records, in order, exactly the elements the matcher
predicate is applied to; the second is `none` on pass (early return on the
first satisfying element) and `some actual` for the failure message, where
`actual` holds every visited non-matching element. -/
def mcRun (p : α → Bool) : List α → List α → List α × Option (List α)
  | [], actual => ([], some actual)
  | x :: xs, actual =>
      if p x then ([x], none)
      else
        let r := mcRun p xs (actual ++ [x])
        (x :: r.1, r.2)

/-- Embedding of `matching_contains` (src/iter.rs:204-220): `none` is a pass,
`some actual` the single-message failure listing the visited elements. -/
def matching_contains (p : α → Bool) (subject : List α) : Option (List α) :=
  (mcRun p subject []).2

/-- Instrumented embedding of `subject.into_iter().map(mapping_function).collect()`
(src/iter.rs:246): the first component records, in order, exactly the elements
the mapping function is applied to; the second is the collected mapped vector. -/
def mapWithTrace (f : α → β) : List α → List α × List β
  | [] => ([], [])
  | x :: xs =>
      let r := mapWithTrace f xs
      (x :: r.1, f x :: r.2)

/-- Embedding of `mapped_contains` (src/iter.rs:239-252): map every subject
element, pass iff the expected value is a member of the mapped vector,
otherwise fail with the failure record `panic_unmatched` receives (the
expected value and the mapped vector, not the original subject). -/
def mapped_contains [DecidableEq β] (f : α → β) (subject : List α)
    (expected_value : β) : Option (β × List β) :=
  let mapped_vec := (mapWithTrace f subject).2
  if expected_value ∈ mapped_vec then none else some (expected_value, mapped_vec)

/-- Outcome of `compare_iterators`: pass, or one of its three failure records,
each carrying the offending element(s) and the prefixes read so far
(src/iter.rs:330-390). -/
inductive CompareOutcome (α : Type u) where
  | pass : CompareOutcome α
  | mismatch (expected : α) (read_expected : List α) (actual : α) (read_subject : List α) :
      CompareOutcome α
  | subjectLonger (actual : α) (read_expected : List α) (read_subject : List α) :
      CompareOutcome α
  | expectedLonger (expected : α) (read_expected : List α) (read_subject : List α) :
      CompareOutcome α
  deriving DecidableEq

/-- The lock-step loop of `compare_iterators` (src/iter.rs:342-389): pull one
element from each side per step, fail on the first divergence or on one side
completing before the other, accumulating the elements read so far. -/
def compareLoop [DecidableEq α] :
    List α → List α → List α → List α → CompareOutcome α
  | a :: as, e :: es, read_subject, read_expected =>
      if a = e then
        compareLoop as es (read_subject ++ [a]) (read_expected ++ [e])
      else
        CompareOutcome.mismatch e read_expected a read_subject
  | a :: _, [], read_subject, read_expected =>
      CompareOutcome.subjectLonger a read_expected read_subject
  | [], e :: _, read_subject, read_expected =>
      CompareOutcome.expectedLonger e read_expected read_subject
  | [], [], _, _ => CompareOutcome.pass

/-- Embedding of `compare_iterators` (src/iter.rs:330-390). -/
def compare_iterators [DecidableEq α] (actual_iter expected_iter : List α) : CompareOutcome α :=
  compareLoop actual_iter expected_iter [] []

/-- The inner scan of `check_iterator_contains_all_of` (src/iter.rs:302-312):
walk `actual_values` with its enumeration index starting at `n`, skip indices
already in `consumed`, and return the first remaining index whose element
equals the expected value. -/
def scanFrom [DecidableEq α] (consumed : List Nat) (expected : α) :
    Nat → List α → Option Nat
  | _, [] => none
  | n, a :: rest =>
      if n ∈ consumed then scanFrom consumed expected (n + 1) rest
      else if expected = a then some n
      else scanFrom consumed expected (n + 1) rest

/-- Loop state of `check_iterator_contains_all_of` (src/iter.rs:293-297). -/
structure AllOfState (α : Type u) where
  matched_indexes : List Nat
  matched_indexes_holder : List Nat
  matched_values : List α
  unmatched_values : List α
  deriving DecidableEq

/-- One iteration of the outer loop of `check_iterator_contains_all_of`
(src/iter.rs:299-315): first merge the holder into `matched_indexes`, then
scan for a not-yet-consumed equal element; on a match the index is parked in
the holder and the value recorded as matched, otherwise the value is recorded
as unmatched. -/
def allOfStep [DecidableEq α] (actual_values : List α) (st : AllOfState α)
    (expected : α) : AllOfState α :=
  let merged := st.matched_indexes ++ st.matched_indexes_holder
  match scanFrom merged expected 0 actual_values with
  | some index =>
      ⟨merged, [index], st.matched_values ++ [expected], st.unmatched_values⟩
  | none =>
      ⟨merged, [], st.matched_values, st.unmatched_values ++ [expected]⟩

/-- The outer loop of `check_iterator_contains_all_of` over the expected
values, in their original order. -/
def allOfLoop [DecidableEq α] (actual_values : List α) :
    AllOfState α → List α → AllOfState α
  | st, [] => st
  | st, e :: es => allOfLoop actual_values (allOfStep actual_values st e) es

/-- Embedding of `check_iterator_contains_all_of` (src/iter.rs:282-328):
`none` is a pass; `some (expected_values, actual_values)` is the failure
record, whose reported expected list is the matched values (in match order)
followed by the unmatched values. -/
def check_iterator_contains_all_of [DecidableEq α] (actual_iter expected_values_iter : List α) :
    Option (List α × List α) :=
  let st := allOfLoop actual_iter ⟨[], [], [], []⟩ expected_values_iter
  if st.unmatched_values = [] then none
  else some (st.matched_values ++ st.unmatched_values, actual_iter)

/-- State of the plain greedy algorithm that consumes each matched index
immediately (the straightforward rendering of src/iter.rs:293-315 without the
deferred `matched_indexes_holder`). -/
structure GreedyState (α : Type u) where
  consumed : List Nat
  matched_values : List α
  unmatched_values : List α
  deriving DecidableEq

/-- One step of the immediate-consumption greedy algorithm. -/
def greedyStep [DecidableEq α] (actual_values : List α) (st : GreedyState α)
    (expected : α) : GreedyState α :=
  match scanFrom st.consumed expected 0 actual_values with
  | some index =>
      ⟨st.consumed ++ [index], st.matched_values ++ [expected], st.unmatched_values⟩
  | none =>
      ⟨st.consumed, st.matched_values, st.unmatched_values ++ [expected]⟩

/-- The immediate-consumption greedy loop, the comparison point for the
deferred-holder implementation. -/
def greedyLoop [DecidableEq α] (actual_values : List α) :
    GreedyState α → List α → GreedyState α
  | st, [] => st
  | st, e :: es => greedyLoop actual_values (greedyStep actual_values st e) es

/-- `contains_all_of` computed by the immediate-consumption greedy algorithm;
same failure record shape as `check_iterator_contains_all_of`. -/
def greedy_contains_all_of [DecidableEq α] (actual_iter expected_values_iter : List α) :
    Option (List α × List α) :=
  let st := greedyLoop actual_iter ⟨[], [], []⟩ expected_values_iter
  if st.unmatched_values = [] then none
  else some (st.matched_values ++ st.unmatched_values, actual_iter)

/-- Per-expected-value trace of the greedy run: each expected value of the
input, in order, paired with the subject index it consumed (or `none` if it
went unmatched), with immediate consumption. -/
def allOfAssign [DecidableEq α] (actual_values : List α) :
    List Nat → List α → List (α × Option Nat)
  | _, [] => []
  | consumed, e :: es =>
      match scanFrom consumed e 0 actual_values with
      | some index => (e, some index) :: allOfAssign actual_values (consumed ++ [index]) es
      | none => (e, none) :: allOfAssign actual_values consumed es

/-- The matched expected values of an assignment trace, in match order. -/
def matchedOf (l : List (α × Option Nat)) : List α :=
  l.filterMap fun p => match p.2 with
    | some _ => some p.1
    | none => none

/-- The unmatched expected values of an assignment trace, in original order. -/
def unmatchedOf (l : List (α × Option Nat)) : List α :=
  l.filterMap fun p => match p.2 with
    | some _ => none
    | none => some p.1

/-- The consumed subject indices of an assignment trace, in consumption order. -/
def consumedOf (l : List (α × Option Nat)) : List Nat :=
  l.filterMap fun p => p.2

/-- The subject elements not yet consumed: walk the subject with its
enumeration index starting at `n` and keep the elements whose index is not in
`consumed`, in original order. -/
def remainingFrom [DecidableEq α] (consumed : List Nat) : Nat → List α → List α
  | _, [] => []
  | n, a :: rest =>
      if n ∈ consumed then remainingFrom consumed (n + 1) rest
      else a :: remainingFrom consumed (n + 1) rest

/- ------------------------------------------------------------------ -/
/- Theorems                                                           -/
/- ------------------------------------------------------------------ -/

section ContainsSingleLemmas

variable {α : Type u} [DecidableEq α]

theorem containsLoop_snd (expected : α) (l : List α) (cv : Bool) (acc : List α) :
    (containsLoop expected l cv acc).2 = acc ++ l := by
  induction l generalizing cv acc with
  | nil => simp [containsLoop]
  | cons x xs ih => simp [containsLoop, ih]

theorem containsLoop_fst (expected : α) (l : List α) (cv : Bool) (acc : List α) :
    (containsLoop expected l cv acc).1 = true ↔ (cv = true ∨ expected ∈ l) := by
  induction l generalizing cv acc with
  | nil => simp [containsLoop]
  | cons x xs ih =>
      rw [containsLoop, ih]
      by_cases hx : expected = x <;> simp [hx]

theorem check_contains_pass_iff (S : List α) (v : α) :
    check_iterator_contains S v true = ContainsOutcome.pass ↔ v ∈ S := by
  have hf := containsLoop_fst v S false []
  simp only [Bool.false_eq_true, false_or] at hf
  by_cases hv : v ∈ S
  · have h1 : (containsLoop v S false []).1 = true := hf.mpr hv
    simp [check_iterator_contains, h1, hv]
  · have h1 : (containsLoop v S false []).1 = false := by
      rcases h : (containsLoop v S false []).1 with _ | _
      · rfl
      · exact absurd (hf.mp h) hv
    simp [check_iterator_contains, h1, hv]

theorem check_contains_fail_inv (S : List α) (v : α) (sc : Bool) (e : α) (a : List α)
    (b : Bool) (h : check_iterator_contains S v sc = ContainsOutcome.fail e a b) :
    e = v ∧ a = S ∧ b = sc := by
  rw [check_iterator_contains] at h
  split at h
  · rcases h with ⟨⟩
    refine ⟨rfl, ?_, rfl⟩
    simpa using containsLoop_snd v S false []
  · cases h

end ContainsSingleLemmas

section PredicateMappingLemmas

variable {α : Type u} {β : Type v}

theorem mcRun_snd (p : α → Bool) (l : List α) (acc : List α) :
    (mcRun p l acc).2 = if l.any p then none else some (acc ++ l) := by
  induction l generalizing acc with
  | nil => simp [mcRun]
  | cons x xs ih =>
      rcases h : p x with _ | _
      · simp [mcRun, h, ih]
      · simp [mcRun, h]

theorem mcRun_fst (p : α → Bool) (l : List α) (acc : List α) :
    (mcRun p l acc).1 = l.take (l.findIdx p + 1) := by
  induction l generalizing acc with
  | nil => simp [mcRun]
  | cons x xs ih =>
      rcases h : p x with _ | _
      · simp [mcRun, h, ih, List.findIdx_cons]
      · simp [mcRun, h, List.findIdx_cons]

theorem mapWithTrace_fst (f : α → β) (l : List α) : (mapWithTrace f l).1 = l := by
  induction l with
  | nil => rfl
  | cons x xs ih => simp [mapWithTrace, ih]

theorem mapWithTrace_snd (f : α → β) (l : List α) : (mapWithTrace f l).2 = l.map f := by
  induction l with
  | nil => rfl
  | cons x xs ih => simp [mapWithTrace, ih]

end PredicateMappingLemmas

section ScanLemmas

variable {α : Type u} [DecidableEq α]

theorem scanFrom_some {c : List Nat} {e : α} {n i : Nat} {l : List α}
    (h : scanFrom c e n l = some i) :
    i ∉ c ∧ n ≤ i ∧ l[i - n]? = some e := by
  induction l generalizing n with
  | nil => simp [scanFrom] at h
  | cons a rest ih =>
      rw [scanFrom] at h
      by_cases hc : n ∈ c
      · rw [if_pos hc] at h
        obtain ⟨h1, h2, h3⟩ := ih h
        refine ⟨h1, by omega, ?_⟩
        have : i - n = (i - (n + 1)) + 1 := by omega
        rw [this, List.getElem?_cons_succ]
        exact h3
      · rw [if_neg hc] at h
        by_cases he : e = a
        · rw [if_pos he] at h
          have hni : n = i := Option.some_inj.mp h
          subst hni
          refine ⟨hc, Nat.le_refl n, ?_⟩
          simp [he]
        · rw [if_neg he] at h
          obtain ⟨h1, h2, h3⟩ := ih h
          refine ⟨h1, by omega, ?_⟩
          have : i - n = (i - (n + 1)) + 1 := by omega
          rw [this, List.getElem?_cons_succ]
          exact h3

theorem scanFrom_min {c : List Nat} {e : α} {n i : Nat} {l : List α}
    (h : scanFrom c e n l = some i) :
    ∀ k, n ≤ k → k < i → k ∉ c → l[k - n]? ≠ some e := by
  induction l generalizing n with
  | nil => simp [scanFrom] at h
  | cons a rest ih =>
      rw [scanFrom] at h
      intro k hnk hki hkc
      by_cases hc : n ∈ c
      · rw [if_pos hc] at h
        rcases Nat.eq_or_lt_of_le hnk with hnk' | hnk'
        · exact absurd hc (hnk' ▸ hkc)
        · have : k - n = (k - (n + 1)) + 1 := by omega
          rw [this, List.getElem?_cons_succ]
          exact ih h k hnk' hki hkc
      · rw [if_neg hc] at h
        by_cases he : e = a
        · rw [if_pos he] at h
          rcases h with ⟨⟩
          omega
        · rw [if_neg he] at h
          rcases Nat.eq_or_lt_of_le hnk with hnk' | hnk'
          · subst hnk'
            have hz : n - n = 0 := Nat.sub_self n
            rw [hz, List.getElem?_cons_zero]
            exact fun hh => he (Option.some_inj.mp hh).symm
          · have : k - n = (k - (n + 1)) + 1 := by omega
            rw [this, List.getElem?_cons_succ]
            exact ih h k hnk' hki hkc

theorem scanFrom_eq_none {c : List Nat} {e : α} {n : Nat} {l : List α}
    (h : scanFrom c e n l = none) :
    ∀ k, l[k]? = some e → (n + k) ∈ c := by
  induction l generalizing n with
  | nil => intro k hk; simp at hk
  | cons a rest ih =>
      rw [scanFrom] at h
      intro k hk
      by_cases hc : n ∈ c
      · rw [if_pos hc] at h
        rcases k with _ | k
        · simpa using hc
        · rw [List.getElem?_cons_succ] at hk
          have := ih h k hk
          have harith : n + (k + 1) = (n + 1) + k := by omega
          rw [harith]
          exact this
      · rw [if_neg hc] at h
        by_cases he : e = a
        · rw [if_pos he] at h; cases h
        · rw [if_neg he] at h
          rcases k with _ | k
          · rw [List.getElem?_cons_zero, Option.some_inj] at hk
            exact absurd hk.symm he
          · rw [List.getElem?_cons_succ] at hk
            have := ih h k hk
            have harith : n + (k + 1) = (n + 1) + k := by omega
            rw [harith]
            exact this

theorem scanFrom_none_iff {c : List Nat} {e : α} {n : Nat} {l : List α} :
    scanFrom c e n l = none ↔ e ∉ remainingFrom c n l := by
  induction l generalizing n with
  | nil => simp [scanFrom, remainingFrom]
  | cons a rest ih =>
      rw [scanFrom, remainingFrom]
      by_cases hc : n ∈ c
      · rw [if_pos hc, if_pos hc, ih]
      · rw [if_neg hc, if_neg hc]
        by_cases he : e = a
        · simp [he]
        · rw [if_neg he, ih]
          simp [List.mem_cons, he]

theorem remainingFrom_congr {c₁ c₂ : List Nat} {n : Nat} (l : List α)
    (h : ∀ j, n ≤ j → (j ∈ c₁ ↔ j ∈ c₂)) :
    remainingFrom c₁ n l = remainingFrom c₂ n l := by
  induction l generalizing n with
  | nil => rfl
  | cons a rest ih =>
      rw [remainingFrom, remainingFrom]
      have hn := h n (Nat.le_refl n)
      have hrec := ih (fun j (hj : n + 1 ≤ j) => h j (Nat.le_of_succ_le hj))
      by_cases hc : n ∈ c₁
      · rw [if_pos hc, if_pos (hn.mp hc), hrec]
      · rw [if_neg hc, if_neg (fun hh => hc (hn.mpr hh)), hrec]

theorem remainingFrom_nil_consumed (n : Nat) (l : List α) :
    remainingFrom ([] : List Nat) n l = l := by
  induction l generalizing n with
  | nil => rfl
  | cons a rest ih => simp [remainingFrom, ih]

theorem remainingFrom_sublist (c : List Nat) (n : Nat) (l : List α) :
    remainingFrom c n l <+ l := by
  induction l generalizing n with
  | nil => simp [remainingFrom]
  | cons a rest ih =>
      rw [remainingFrom]
      by_cases hc : n ∈ c
      · rw [if_pos hc]
        exact (ih (n + 1)).cons a
      · rw [if_neg hc]
        exact (ih (n + 1)).cons₂ a

theorem scanFrom_erase {c : List Nat} {e : α} {n i : Nat} {l : List α}
    (h : scanFrom c e n l = some i) :
    remainingFrom (c ++ [i]) n l = (remainingFrom c n l).erase e := by
  induction l generalizing n with
  | nil => simp [scanFrom] at h
  | cons a rest ih =>
      have hsome := scanFrom_some h
      rw [scanFrom] at h
      rw [remainingFrom, remainingFrom]
      by_cases hc : n ∈ c
      · rw [if_pos hc] at h
        rw [if_pos (List.mem_append_left _ hc), if_pos hc]
        exact ih h
      · rw [if_neg hc] at h
        by_cases he : e = a
        · rw [if_pos he] at h
          have hni : n = i := Option.some_inj.mp h
          subst hni
          have hmem : n ∈ c ++ [n] := List.mem_append_right _ (List.mem_singleton.mpr rfl)
          rw [if_pos hmem, if_neg hc]
          have herase : (a :: remainingFrom c (n + 1) rest).erase e =
              remainingFrom c (n + 1) rest := by
            rw [he, List.erase_cons_head]
          rw [herase]
          exact remainingFrom_congr rest (by
            intro j hj
            have : j ≠ n := by omega
            simp [this])
        · rw [if_neg he] at h
          have hin : i ≠ n := by
            obtain ⟨h1, h2, h3⟩ := scanFrom_some h
            omega
          have hnc : n ∉ c ++ [i] := by
            intro hh
            rcases List.mem_append.mp hh with hh | hh
            · exact hc hh
            · exact hin (List.mem_singleton.mp hh).symm
          rw [if_neg hnc, if_neg hc]
          have herase : (a :: remainingFrom c (n + 1) rest).erase e =
              a :: (remainingFrom c (n + 1) rest).erase e := by
            rw [List.erase_cons_tail]
            simp only [beq_iff_eq]
            exact fun hh => he hh.symm
          rw [herase, ih h]

theorem mem_remainingFrom_of_getElem {c : List Nat} {e : α} {l : List α} {i : Nat}
    (hi : l[i]? = some e) (hic : i ∉ c) : e ∈ remainingFrom c 0 l := by
  rcases h : scanFrom c e 0 l with _ | j
  · exact absurd (by simpa using scanFrom_eq_none h i hi) hic
  · by_contra hmem
    exact (scanFrom_none_iff.mpr hmem).symm.trans h |>.symm |> (by simp : some j = none → False)

end ScanLemmas

section ProjLemmas

variable {α : Type u}

theorem matchedOf_nil : matchedOf ([] : List (α × Option Nat)) = [] := rfl

theorem matchedOf_cons_some (e : α) (i : Nat) (l : List (α × Option Nat)) :
    matchedOf ((e, some i) :: l) = e :: matchedOf l := rfl

theorem matchedOf_cons_none (e : α) (l : List (α × Option Nat)) :
    matchedOf ((e, none) :: l) = matchedOf l := rfl

theorem unmatchedOf_nil : unmatchedOf ([] : List (α × Option Nat)) = [] := rfl

theorem unmatchedOf_cons_some (e : α) (i : Nat) (l : List (α × Option Nat)) :
    unmatchedOf ((e, some i) :: l) = unmatchedOf l := rfl

theorem unmatchedOf_cons_none (e : α) (l : List (α × Option Nat)) :
    unmatchedOf ((e, none) :: l) = e :: unmatchedOf l := rfl

theorem consumedOf_nil : consumedOf ([] : List (α × Option Nat)) = [] := rfl

theorem consumedOf_cons_some (e : α) (i : Nat) (l : List (α × Option Nat)) :
    consumedOf ((e, some i) :: l) = i :: consumedOf l := rfl

theorem consumedOf_cons_none (e : α) (l : List (α × Option Nat)) :
    consumedOf ((e, none) :: l) = consumedOf l := rfl

theorem matchedOf_sublist (l : List (α × Option Nat)) :
    matchedOf l <+ l.map Prod.fst := by
  induction l with
  | nil => simp [matchedOf_nil]
  | cons p l ih =>
      rcases p with ⟨e, _ | i⟩
      · rw [matchedOf_cons_none, List.map_cons]
        exact ih.cons e
      · rw [matchedOf_cons_some, List.map_cons]
        exact ih.cons₂ e

theorem unmatchedOf_sublist (l : List (α × Option Nat)) :
    unmatchedOf l <+ l.map Prod.fst := by
  induction l with
  | nil => simp [unmatchedOf_nil]
  | cons p l ih =>
      rcases p with ⟨e, _ | i⟩
      · rw [unmatchedOf_cons_none, List.map_cons]
        exact ih.cons₂ e
      · rw [unmatchedOf_cons_some, List.map_cons]
        exact ih.cons e

end ProjLemmas

section AssignLemmas

variable {α : Type u} [DecidableEq α]

theorem allOfAssign_map_fst (A : List α) (es : List α) (c : List Nat) :
    (allOfAssign A c es).map Prod.fst = es := by
  induction es generalizing c with
  | nil => rfl
  | cons e es ih =>
      rw [allOfAssign]
      rcases h : scanFrom c e 0 A with _ | i
      · simp [ih]
      · simp [ih]

theorem matched_add_unmatched_count (l : List (α × Option Nat)) (v : α) :
    (matchedOf l).count v + (unmatchedOf l).count v = (l.map Prod.fst).count v := by
  induction l with
  | nil => rfl
  | cons p l ih =>
      rcases p with ⟨e, _ | i⟩
      · rw [unmatchedOf_cons_none, matchedOf_cons_none, List.map_cons]
        by_cases hve : v = e
        · subst hve
          rw [List.count_cons_self, List.count_cons_self]
          omega
        · rw [List.count_cons_of_ne hve, List.count_cons_of_ne hve]
          exact ih
      · rw [unmatchedOf_cons_some, matchedOf_cons_some, List.map_cons]
        by_cases hve : v = e
        · subst hve
          rw [List.count_cons_self, List.count_cons_self]
          omega
        · rw [List.count_cons_of_ne hve, List.count_cons_of_ne hve]
          exact ih

theorem allOfLoop_eq_assign (A : List α) (es : List α)
    (mi hold : List Nat) (mv uv : List α) :
    (allOfLoop A ⟨mi, hold, mv, uv⟩ es).matched_values =
        mv ++ matchedOf (allOfAssign A (mi ++ hold) es) ∧
      (allOfLoop A ⟨mi, hold, mv, uv⟩ es).unmatched_values =
        uv ++ unmatchedOf (allOfAssign A (mi ++ hold) es) ∧
      (allOfLoop A ⟨mi, hold, mv, uv⟩ es).matched_indexes ++
          (allOfLoop A ⟨mi, hold, mv, uv⟩ es).matched_indexes_holder =
        (mi ++ hold) ++ consumedOf (allOfAssign A (mi ++ hold) es) := by
  induction es generalizing mi hold mv uv with
  | nil => simp [allOfLoop, allOfAssign, matchedOf_nil, unmatchedOf_nil, consumedOf_nil]
  | cons e es ih =>
      rw [allOfLoop, allOfStep, allOfAssign]
      rcases h : scanFrom (mi ++ hold) e 0 A with _ | i
      · have := ih (mi ++ hold) [] mv (uv ++ [e])
        simpa [unmatchedOf_cons_none, matchedOf_cons_none, consumedOf_cons_none] using this
      · have := ih (mi ++ hold) [i] (mv ++ [e]) uv
        simpa [unmatchedOf_cons_some, matchedOf_cons_some, consumedOf_cons_some] using this

theorem greedyLoop_eq_assign (A : List α) (es : List α) (c : List Nat) (mv uv : List α) :
    (greedyLoop A ⟨c, mv, uv⟩ es).matched_values =
        mv ++ matchedOf (allOfAssign A c es) ∧
      (greedyLoop A ⟨c, mv, uv⟩ es).unmatched_values =
        uv ++ unmatchedOf (allOfAssign A c es) ∧
      (greedyLoop A ⟨c, mv, uv⟩ es).consumed = c ++ consumedOf (allOfAssign A c es) := by
  induction es generalizing c mv uv with
  | nil => simp [greedyLoop, allOfAssign, matchedOf_nil, unmatchedOf_nil, consumedOf_nil]
  | cons e es ih =>
      rw [greedyLoop, greedyStep, allOfAssign]
      rcases h : scanFrom c e 0 A with _ | i
      · have := ih c mv (uv ++ [e])
        simpa [unmatchedOf_cons_none, matchedOf_cons_none, consumedOf_cons_none] using this
      · have := ih (c ++ [i]) (mv ++ [e]) uv
        simpa [unmatchedOf_cons_some, matchedOf_cons_some, consumedOf_cons_some] using this

theorem consumed_nodup (A : List α) (es : List α) (c : List Nat) (hc : c.Nodup) :
    (c ++ consumedOf (allOfAssign A c es)).Nodup := by
  induction es generalizing c with
  | nil => simpa [allOfAssign, consumedOf_nil] using hc
  | cons e es ih =>
      rw [allOfAssign]
      rcases h : scanFrom c e 0 A with _ | i
      · rw [consumedOf_cons_none]
        exact ih c hc
      · rw [consumedOf_cons_some]
        have hi : i ∉ c := (scanFrom_some h).1
        have hnodup : (c ++ [i]).Nodup := by
          rw [List.nodup_append]
          refine ⟨hc, List.nodup_singleton i, ?_⟩
          intro x hx hx'
          rw [List.mem_singleton] at hx'
          subst hx'
          exact hi hx
        have := ih (c ++ [i]) hnodup
        simpa [List.append_assoc] using this

theorem allOfAssign_cons_none {A : List α} {c : List Nat} {e : α} (es : List α)
    (hs : scanFrom c e 0 A = none) :
    allOfAssign A c (e :: es) = (e, none) :: allOfAssign A c es := by
  rw [allOfAssign, hs]

theorem allOfAssign_cons_some {A : List α} {c : List Nat} {e : α} {i : Nat} (es : List α)
    (hs : scanFrom c e 0 A = some i) :
    allOfAssign A c (e :: es) = (e, some i) :: allOfAssign A (c ++ [i]) es := by
  rw [allOfAssign, hs]

theorem allOfAssign_getElem_some {A : List α} :
    ∀ {es : List α} {c : List Nat} {k : Nat} {v : α} {i : Nat},
      (allOfAssign A c es)[k]? = some (v, some i) →
      es[k]? = some v ∧ i ∉ c ∧ A[i]? = some v := by
  intro es
  induction es with
  | nil => intro c k v i h; simp [allOfAssign] at h
  | cons e es ih =>
      intro c k v i h
      rw [allOfAssign] at h
      rcases hs : scanFrom c e 0 A with _ | idx <;> rw [hs] at h
      · rcases k with _ | k
        · rw [List.getElem?_cons_zero] at h
          simp at h
        · rw [List.getElem?_cons_succ] at h
          obtain ⟨h1, h2, h3⟩ := ih h
          exact ⟨by simpa using h1, h2, h3⟩
      · rcases k with _ | k
        · rw [List.getElem?_cons_zero] at h
          have he : e = v ∧ idx = i := by
            have := Option.some_inj.mp h
            exact ⟨congrArg Prod.fst this, Option.some_inj.mp (congrArg Prod.snd this)⟩
          obtain ⟨rfl, rfl⟩ := he
          obtain ⟨hni, _, hval⟩ := scanFrom_some hs
          refine ⟨by simp, hni, ?_⟩
          simpa using hval
        · rw [List.getElem?_cons_succ] at h
          obtain ⟨h1, h2, h3⟩ := ih h
          refine ⟨by simpa using h1, ?_, h3⟩
          intro hmem
          exact h2 (List.mem_append_left _ hmem)

theorem allOfAssign_priority {A : List α} :
    ∀ {es : List α} {c : List Nat} {j k : Nat} {v : α} {i : Nat},
      j < k → es[j]? = some v →
      (allOfAssign A c es)[k]? = some (v, some i) →
      ∃ i', (allOfAssign A c es)[j]? = some (v, some i') ∧ i' < i := by
  intro es
  induction es with
  | nil => intro c j k v i _ _ h; simp [allOfAssign] at h
  | cons e es ih =>
      intro c j k v i hjk hj hk
      rcases k with _ | k
      · omega
      rcases hs : scanFrom c e 0 A with _ | idx
      · rw [allOfAssign_cons_none es hs] at hk ⊢
        rcases j with _ | j
        · rw [List.getElem?_cons_zero] at hj
          have hv : e = v := Option.some_inj.mp hj
          subst hv
          rw [List.getElem?_cons_succ] at hk
          obtain ⟨_, hic, hival⟩ := allOfAssign_getElem_some hk
          have := scanFrom_eq_none hs i hival
          simp at this
          exact absurd this hic
        · rw [List.getElem?_cons_succ] at hj hk ⊢
          exact ih (by omega) hj hk
      · rw [allOfAssign_cons_some es hs] at hk ⊢
        rcases j with _ | j
        · rw [List.getElem?_cons_zero] at hj
          have hv : e = v := Option.some_inj.mp hj
          subst hv
          rw [List.getElem?_cons_succ] at hk
          obtain ⟨_, hic, hival⟩ := allOfAssign_getElem_some hk
          have hinc : i ∉ c := fun hh => hic (List.mem_append_left _ hh)
          have hii : i ≠ idx := by
            intro hh
            exact hic (List.mem_append_right _ (by simp [hh]))
          have hge : ¬ i < idx := by
            intro hlt
            have := scanFrom_min hs i (Nat.zero_le i) hlt hinc
            rw [Nat.sub_zero] at this
            exact this hival
          refine ⟨idx, by rw [List.getElem?_cons_zero], by omega⟩
        · rw [List.getElem?_cons_succ] at hj hk ⊢
          exact ih (by omega) hj hk

theorem matched_count_le (A : List α) :
    ∀ (es : List α) (c : List Nat) (v : α),
      (matchedOf (allOfAssign A c es)).count v ≤ (remainingFrom c 0 A).count v := by
  intro es
  induction es with
  | nil => intro c v; simp [allOfAssign, matchedOf_nil]
  | cons e es ih =>
      intro c v
      rw [allOfAssign]
      rcases hs : scanFrom c e 0 A with _ | i
      · rw [matchedOf_cons_none]
        exact ih c v
      · rw [matchedOf_cons_some]
        have hmem : e ∈ remainingFrom c 0 A := by
          by_contra hmem
          rw [← scanFrom_none_iff] at hmem
          rw [hmem] at hs
          cases hs
        have hpos : 0 < (remainingFrom c 0 A).count e := List.count_pos_iff.mpr hmem
        have hrw := scanFrom_erase hs
        have := ih (c ++ [i]) v
        rw [hrw] at this
        by_cases hve : v = e
        · subst hve
          rw [List.count_cons_self]
          rw [List.count_erase_self] at this
          omega
        · rw [List.count_cons_of_ne hve]
          rw [List.count_erase_of_ne hve] at this
          exact this

theorem unmatched_empty_iff_counts (A : List α) :
    ∀ (es : List α) (c : List Nat),
      unmatchedOf (allOfAssign A c es) = [] ↔
        ∀ v, es.count v ≤ (remainingFrom c 0 A).count v := by
  intro es
  induction es with
  | nil =>
      intro c
      simp [allOfAssign, unmatchedOf_nil]
  | cons e es ih =>
      intro c
      rw [allOfAssign]
      rcases hs : scanFrom c e 0 A with _ | i
      · rw [unmatchedOf_cons_none]
        have hnotmem : e ∉ remainingFrom c 0 A := scanFrom_none_iff.mp hs
        have hzero : (remainingFrom c 0 A).count e = 0 := List.count_eq_zero.mpr hnotmem
        constructor
        · intro h; cases h
        · intro hall
          have := hall e
          rw [List.count_cons_self, hzero] at this
          omega
      · rw [unmatchedOf_cons_some]
        have hmem : e ∈ remainingFrom c 0 A := by
          by_contra hmem
          rw [← scanFrom_none_iff] at hmem
          rw [hmem] at hs
          cases hs
        have hpos : 0 < (remainingFrom c 0 A).count e := List.count_pos_iff.mpr hmem
        have hrw := scanFrom_erase hs
        rw [ih (c ++ [i]), hrw]
        constructor
        · intro hall v
          by_cases hve : v = e
          · subst hve
            have := hall v
            rw [List.count_erase_self] at this
            rw [List.count_cons_self]
            omega
          · have := hall v
            rw [List.count_erase_of_ne hve] at this
            rw [List.count_cons_of_ne hve]
            exact this
        · intro hall v
          by_cases hve : v = e
          · subst hve
            have := hall v
            rw [List.count_cons_self] at this
            rw [List.count_erase_self]
            omega
          · have := hall v
            rw [List.count_cons_of_ne hve] at this
            rw [List.count_erase_of_ne hve]
            exact this

end AssignLemmas

section ApplyCongr

variable {α : Type u}

theorem subtype_fin_apply_congr {n m : Nat} {EV : Fin m → α} {AV : Fin n → α}
    (g : ∀ v : α, {j : Fin m // EV j = v} ↪ {i : Fin n // AV i = v}) {v w : α}
    (hvw : v = w) (j : Fin m) (hjv : EV j = v) (hjw : EV j = w) :
    ((g v ⟨j, hjv⟩).1 : Fin n) = (g w ⟨j, hjw⟩).1 := by
  subst hvw
  rfl

end ApplyCongr

section AssignmentExistence

variable {α : Type u} [DecidableEq α]

theorem count_eq_card_get (l : List α) (v : α) :
    l.count v = Fintype.card {j : Fin l.length // l.get j = v} := by
  rw [Fintype.card_subtype]
  induction l with
  | nil => simp
  | cons a t ih =>
      show List.count v (a :: t) =
        (Finset.filter (fun x : Fin (t.length + 1) => (a :: t).get x = v) Finset.univ).card
      rw [Fin.card_filter_univ_succ' (fun j : Fin (t.length + 1) => (a :: t).get j = v)]
      simp only [List.get_cons_zero, List.get_cons_succ']
      rw [List.count_cons, ih]
      by_cases hav : a = v
      · simp [hav, Nat.add_comm]
      · simp [hav]

theorem exists_assignment_iff_counts (A E : List α) :
    (∃ f : Fin E.length → Fin A.length,
        Function.Injective f ∧ ∀ j, E.get j = A.get (f j)) ↔
      ∀ v, E.count v ≤ A.count v := by
  constructor
  · rintro ⟨f, hinj, hval⟩ v
    rw [count_eq_card_get, count_eq_card_get]
    have hg : Function.Injective
        (fun x : {j : Fin E.length // E.get j = v} =>
          (⟨f x.1, by rw [← hval x.1, x.2]⟩ : {i : Fin A.length // A.get i = v})) := by
      intro x y hxy
      have : f x.1 = f y.1 := congrArg Subtype.val hxy
      exact Subtype.ext (hinj this)
    exact Fintype.card_le_of_injective _ hg
  · intro hcount
    have hne : ∀ v : α,
        Nonempty ({j : Fin E.length // E.get j = v} ↪ {i : Fin A.length // A.get i = v}) := by
      intro v
      apply Function.Embedding.nonempty_of_card_le
      rw [← count_eq_card_get, ← count_eq_card_get]
      exact hcount v
    have g : ∀ v : α, {j : Fin E.length // E.get j = v} ↪ {i : Fin A.length // A.get i = v} :=
      fun v => Classical.choice (hne v)
    refine ⟨fun j => (g (E.get j) ⟨j, rfl⟩).1, ?_, ?_⟩
    · intro j1 j2 h
      dsimp only at h
      have p1 : A.get ((g (E.get j1) ⟨j1, rfl⟩).1) = E.get j1 := (g (E.get j1) ⟨j1, rfl⟩).2
      have p2 : A.get ((g (E.get j2) ⟨j2, rfl⟩).1) = E.get j2 := (g (E.get j2) ⟨j2, rfl⟩).2
      have hv : E.get j1 = E.get j2 := by rw [← p1, ← p2, h]
      have htrans : ((g (E.get j1) ⟨j2, hv.symm⟩).1 : Fin A.length) =
          (g (E.get j2) ⟨j2, rfl⟩).1 :=
        subtype_fin_apply_congr g hv j2 hv.symm rfl
      have heq : (g (E.get j1) ⟨j1, rfl⟩ : {i : Fin A.length // A.get i = E.get j1}) =
          g (E.get j1) ⟨j2, hv.symm⟩ := by
        apply Subtype.ext
        rw [htrans]
        exact h
      have := (g (E.get j1)).injective heq
      exact congrArg Subtype.val this
    · intro j
      exact ((g (E.get j) ⟨j, rfl⟩).2).symm

end AssignmentExistence

section CompareLemmas

variable {α : Type u} [DecidableEq α]

theorem compareLoop_pass_iff (as es rs re : List α) :
    compareLoop as es rs re = CompareOutcome.pass ↔ as = es := by
  induction as generalizing es rs re with
  | nil =>
      cases es with
      | nil => simp [compareLoop]
      | cons e es => simp [compareLoop]
  | cons a as ih =>
      cases es with
      | nil => simp [compareLoop]
      | cons e es =>
          rw [compareLoop]
          by_cases hae : a = e
          · rw [if_pos hae, ih]
            simp [hae]
          · rw [if_neg hae]
            simp [hae]

theorem compareLoop_mismatch_inv {as es rs re : List α} {e a : α} {re' rs' : List α}
    (h : compareLoop as es rs re = CompareOutcome.mismatch e re' a rs') :
    ∃ k, k < as.length ∧ k < es.length ∧ rs' = rs ++ as.take k ∧ re' = re ++ es.take k ∧
      as[k]? = some a ∧ es[k]? = some e ∧ a ≠ e ∧ ∀ j, j < k → as[j]? = es[j]? := by
  induction as generalizing es rs re with
  | nil =>
      cases es with
      | nil => simp [compareLoop] at h
      | cons e0 es => simp [compareLoop] at h
  | cons a0 as ih =>
      cases es with
      | nil => simp [compareLoop] at h
      | cons e0 es =>
          rw [compareLoop] at h
          by_cases hae : a0 = e0
          · rw [if_pos hae] at h
            obtain ⟨k, hk1, hk2, hrs, hre, ha, he, hne, hpre⟩ := ih h
            refine ⟨k + 1, by simpa using hk1, by simpa using hk2, ?_, ?_,
              by simpa using ha, by simpa using he, hne, ?_⟩
            · rw [List.take_succ_cons, hrs]
              simp
            · rw [List.take_succ_cons, hre]
              simp
            · intro j hj
              rcases j with _ | j
              · simp [hae]
              · rw [List.getElem?_cons_succ, List.getElem?_cons_succ]
                exact hpre j (by omega)
          · rw [if_neg hae] at h
            rcases h with ⟨⟩
            refine ⟨0, by simp, by simp, by simp, by simp, by simp, by simp, hae, ?_⟩
            intro j hj
            exact absurd hj (Nat.not_lt_zero j)

theorem compareLoop_prefix (p u v rs re : List α) :
    compareLoop (p ++ u) (p ++ v) rs re = compareLoop u v (rs ++ p) (re ++ p) := by
  induction p generalizing rs re with
  | nil => simp
  | cons x p ih =>
      rw [List.cons_append, List.cons_append, compareLoop, if_pos rfl, ih]
      simp [List.append_assoc]

theorem compareLoop_subjectLonger_inv {as es rs re : List α} {a : α} {re' rs' : List α}
    (h : compareLoop as es rs re = CompareOutcome.subjectLonger a re' rs') :
    es.length < as.length ∧ rs' = rs ++ as.take es.length ∧ re' = re ++ es ∧
      as[es.length]? = some a ∧ ∀ j, j < es.length → as[j]? = es[j]? := by
  induction as generalizing es rs re with
  | nil =>
      cases es with
      | nil => simp [compareLoop] at h
      | cons e0 es => simp [compareLoop] at h
  | cons a0 as ih =>
      cases es with
      | nil =>
          rw [compareLoop] at h
          rcases h with ⟨⟩
          refine ⟨by simp, by simp, by simp, by simp, ?_⟩
          intro j hj
          exact absurd hj (Nat.not_lt_zero j)
      | cons e0 es =>
          rw [compareLoop] at h
          by_cases hae : a0 = e0
          · rw [if_pos hae] at h
            obtain ⟨h1, h2, h3, h4, h5⟩ := ih h
            refine ⟨by simpa using h1, ?_, ?_, by simpa using h4, ?_⟩
            · rw [List.length_cons, List.take_succ_cons, h2]
              simp
            · rw [h3]
              simp
            · intro j hj
              rcases j with _ | j
              · simp [hae]
              · rw [List.getElem?_cons_succ, List.getElem?_cons_succ]
                exact h5 j (by simpa using hj)
          · rw [if_neg hae] at h
            cases h

theorem compareLoop_expectedLonger_inv {as es rs re : List α} {e : α} {re' rs' : List α}
    (h : compareLoop as es rs re = CompareOutcome.expectedLonger e re' rs') :
    as.length < es.length ∧ re' = re ++ es.take as.length ∧ rs' = rs ++ as ∧
      es[as.length]? = some e ∧ ∀ j, j < as.length → as[j]? = es[j]? := by
  induction as generalizing es rs re with
  | nil =>
      cases es with
      | nil => simp [compareLoop] at h
      | cons e0 es =>
          rw [compareLoop] at h
          rcases h with ⟨⟩
          refine ⟨by simp, by simp, by simp, by simp, ?_⟩
          intro j hj
          exact absurd hj (Nat.not_lt_zero j)
  | cons a0 as ih =>
      cases es with
      | nil => simp [compareLoop] at h
      | cons e0 es =>
          rw [compareLoop] at h
          by_cases hae : a0 = e0
          · rw [if_pos hae] at h
            obtain ⟨h1, h2, h3, h4, h5⟩ := ih h
            refine ⟨by simpa using h1, ?_, ?_, by simpa using h4, ?_⟩
            · rw [List.length_cons, List.take_succ_cons, h2]
              simp
            · rw [h3]
              simp
            · intro j hj
              rcases j with _ | j
              · simp [hae]
              · rw [List.getElem?_cons_succ, List.getElem?_cons_succ]
                exact h5 j (by simpa using hj)
          · rw [if_neg hae] at h
            cases h

end CompareLemmas

section MoreHelpers

variable {α : Type u} [DecidableEq α]

theorem check_not_contains_pass_iff (S : List α) (v : α) :
    check_iterator_contains S v false = ContainsOutcome.pass ↔ v ∉ S := by
  have hf := containsLoop_fst v S false []
  simp only [Bool.false_eq_true, false_or] at hf
  by_cases hv : v ∈ S
  · have h1 : (containsLoop v S false []).1 = true := hf.mpr hv
    simp [check_iterator_contains, h1, hv]
  · have h1 : (containsLoop v S false []).1 = false := by
      rcases h : (containsLoop v S false []).1 with _ | _
      · rfl
      · exact absurd (hf.mp h) hv
    simp [check_iterator_contains, h1, hv]

theorem check_all_of_eq_none_iff (A E : List α) :
    check_iterator_contains_all_of A E = none ↔
      (allOfLoop A ⟨[], [], [], []⟩ E).unmatched_values = [] := by
  rw [check_iterator_contains_all_of]
  by_cases h : (allOfLoop A ⟨[], [], [], []⟩ E).unmatched_values = []
  · simp [h]
  · simp [h]

theorem check_all_of_eq_some (A E : List α)
    (h : (allOfLoop A ⟨[], [], [], []⟩ E).unmatched_values ≠ []) :
    check_iterator_contains_all_of A E =
      some ((allOfLoop A ⟨[], [], [], []⟩ E).matched_values ++
        (allOfLoop A ⟨[], [], [], []⟩ E).unmatched_values, A) := by
  rw [check_iterator_contains_all_of]
  simp [h]

end MoreHelpers

section TakeHelper

variable {α : Type u}

theorem take_eq_take_of_pointwise {A B : List α} {k : Nat} (hk1 : k ≤ A.length)
    (hk2 : k ≤ B.length) (hpre : ∀ j, j < k → A[j]? = B[j]?) :
    A.take k = B.take k := by
  apply List.ext_getElem?
  intro j
  by_cases hj : j < k
  · rw [List.getElem?_take_of_lt hj, List.getElem?_take_of_lt hj]
    exact hpre j hj
  · have h1 : (A.take k).length ≤ j := by
      rw [List.length_take]
      omega
    have h2 : (B.take k).length ≤ j := by
      rw [List.length_take]
      omega
    rw [List.getElem?_eq_none h1, List.getElem?_eq_none h2]

end TakeHelper

/- ------------------------------------------------------------------ -/
/- Claim theorems                                                     -/
/- ------------------------------------------------------------------ -/

section Claims

/-- C1: for every finite subject list `A` and expected list `E`,
`contains_all_of` passes (raises nothing) if and only if there is an
injective assignment of the positions of `E` to distinct indices of `A`
such that each expected value equals the subject element at its assigned
index; in particular the greedy leftmost algorithm never reports an
unmatched value when some injective assignment would succeed. -/
theorem contains_all_of_pass_iff_injective_assignment {α : Type u} [DecidableEq α] (A E : List α) :
    check_iterator_contains_all_of A E = none ↔
      ∃ f : Fin E.length → Fin A.length,
        Function.Injective f ∧ ∀ j, E.get j = A.get (f j) := by
  obtain ⟨ha1, ha2, ha3⟩ := allOfLoop_eq_assign A E [] [] [] []
  simp only [List.nil_append] at ha2
  rw [check_all_of_eq_none_iff, ha2, unmatched_empty_iff_counts A E [],
    remainingFrom_nil_consumed]
  exact (exists_assignment_iff_counts A E).symm

/-- C2: over a run of `contains_all_of`, every subject index is consumed by
at most one expected value (the final consumed index list has no
duplicates); the consumed indices are exactly those of the per-expected
assignment trace, which processes the expected values in their original
order; when a later duplicate of an expected value consumes subject index
`i`, the earlier occurrence was itself matched and to a strictly earlier
index (earlier expected values have priority); and multiplicities are
enforced: the matched values never use more copies of a value than the
subject holds. -/
theorem contains_all_of_invariants {α : Type u} [DecidableEq α] (A E : List α) :
    ((allOfLoop A ⟨[], [], [], []⟩ E).matched_indexes ++
        (allOfLoop A ⟨[], [], [], []⟩ E).matched_indexes_holder).Nodup
    ∧ (allOfLoop A ⟨[], [], [], []⟩ E).matched_indexes ++
        (allOfLoop A ⟨[], [], [], []⟩ E).matched_indexes_holder =
          consumedOf (allOfAssign A [] E)
    ∧ (allOfAssign A [] E).map Prod.fst = E
    ∧ (∀ (j k i : Nat) (v : α), j < k → E[j]? = some v →
        (allOfAssign A [] E)[k]? = some (v, some i) →
        ∃ ij, (allOfAssign A [] E)[j]? = some (v, some ij) ∧ ij < i)
    ∧ (∀ v, (allOfLoop A ⟨[], [], [], []⟩ E).matched_values.count v ≤ A.count v)
    ∧ (∀ v, (allOfLoop A ⟨[], [], [], []⟩ E).matched_values.count v +
        (allOfLoop A ⟨[], [], [], []⟩ E).unmatched_values.count v = E.count v) := by
  obtain ⟨ha1, ha2, ha3⟩ := allOfLoop_eq_assign A E [] [] [] []
  simp only [List.nil_append] at ha1 ha2 ha3
  refine ⟨?_, ha3, allOfAssign_map_fst A E [], ?_, ?_, ?_⟩
  · rw [ha3]
    have := consumed_nodup A E [] List.nodup_nil
    simpa using this
  · intro j k i v hjk hj hk
    exact allOfAssign_priority hjk hj hk
  · intro v
    rw [ha1]
    have h1 := matched_count_le A E [] v
    rwa [remainingFrom_nil_consumed] at h1
  · intro v
    rw [ha1, ha2]
    have h2 := matched_add_unmatched_count (allOfAssign A [] E) v
    rwa [allOfAssign_map_fst] at h2

/-- C3: when `contains_all_of` fails, the reported "expected" list is the
matched values (in the order they were matched) followed by the unmatched
values; the "actual" part is the whole subject in original order; both the
matched and the unmatched values keep their original relative order from
`E` (they are subsequences of `E`). -/
theorem contains_all_of_failure_ordering {α : Type u} [DecidableEq α] (A E : List α) (f : List α × List α)
    (h : check_iterator_contains_all_of A E = some f) :
    f.1 = (allOfLoop A ⟨[], [], [], []⟩ E).matched_values ++
        (allOfLoop A ⟨[], [], [], []⟩ E).unmatched_values
    ∧ f.2 = A
    ∧ (allOfLoop A ⟨[], [], [], []⟩ E).matched_values <+ E
    ∧ (allOfLoop A ⟨[], [], [], []⟩ E).unmatched_values <+ E := by
  obtain ⟨ha1, ha2, _⟩ := allOfLoop_eq_assign A E [] [] [] []
  simp only [List.nil_append] at ha1 ha2
  by_cases hu : (allOfLoop A ⟨[], [], [], []⟩ E).unmatched_values = []
  · have := (check_all_of_eq_none_iff A E).mpr hu
    rw [this] at h
    cases h
  · have hsome := check_all_of_eq_some A E hu
    rw [hsome] at h
    obtain rfl := Option.some_inj.mp h
    refine ⟨rfl, rfl, ?_, ?_⟩
    · rw [ha1]
      have hs := matchedOf_sublist (allOfAssign A [] E)
      rwa [allOfAssign_map_fst] at hs
    · rw [ha2]
      have hs := unmatchedOf_sublist (allOfAssign A [] E)
      rwa [allOfAssign_map_fst] at hs

/-- Witness for C3 at the spec's concrete example:
`contains_all_of([1,2,3], [1,1,3])` fails with expected list `[1, 3, 1]`
(matched `1` then `3`, then the unmatched duplicate `1`) and actual
`[1, 2, 3]`. -/
theorem contains_all_of_failure_ordering_witness :
    check_iterator_contains_all_of ([1, 2, 3] : List Int) [1, 1, 3] =
        some ([1, 3, 1], [1, 2, 3])
    ∧ (([1, 3, 1], [1, 2, 3]) : List Int × List Int).1 =
        (allOfLoop ([1, 2, 3] : List Int) ⟨[], [], [], []⟩ [1, 1, 3]).matched_values ++
          (allOfLoop ([1, 2, 3] : List Int) ⟨[], [], [], []⟩ [1, 1, 3]).unmatched_values
    ∧ (([1, 3, 1], [1, 2, 3]) : List Int × List Int).2 = [1, 2, 3]
    ∧ (allOfLoop ([1, 2, 3] : List Int) ⟨[], [], [], []⟩ [1, 1, 3]).matched_values <+ [1, 1, 3]
    ∧ (allOfLoop ([1, 2, 3] : List Int) ⟨[], [], [], []⟩ [1, 1, 3]).unmatched_values
        <+ [1, 1, 3] := by
  have h : check_iterator_contains_all_of ([1, 2, 3] : List Int) [1, 1, 3] =
      some ([1, 3, 1], [1, 2, 3]) := by decide
  obtain ⟨h1, h2, h3, h4⟩ :=
    contains_all_of_failure_ordering ([1, 2, 3] : List Int) [1, 1, 3]
      ([1, 3, 1], [1, 2, 3]) h
  exact ⟨h, h1, h2, h3, h4⟩

/-- C4: `equals_iterator` passes iff both sequences have equal length and
equal elements at every index; each failure outcome reports the first
divergence (or the completed side) together with the prefixes read so far,
which are equal; and a mismatch is decided from those prefixes alone — any
extensions beyond the mismatching elements produce the identical failure
(nothing further is pulled). -/
theorem equals_iterator_spec {α : Type u} [DecidableEq α] (A B : List α) :
    (compare_iterators A B = CompareOutcome.pass ↔
      (A.length = B.length ∧ ∀ i : Nat, A[i]? = B[i]?))
    ∧ (∀ e re a rs, compare_iterators A B = CompareOutcome.mismatch e re a rs →
        ∃ k, k < A.length ∧ k < B.length ∧ rs = A.take k ∧ re = B.take k ∧ rs = re ∧
          A[k]? = some a ∧ B[k]? = some e ∧ a ≠ e ∧ (∀ j, j < k → A[j]? = B[j]?) ∧
          ∀ X Y, compare_iterators (rs ++ a :: X) (re ++ e :: Y) =
            CompareOutcome.mismatch e re a rs)
    ∧ (∀ a re rs, compare_iterators A B = CompareOutcome.subjectLonger a re rs →
        B.length < A.length ∧ rs = A.take B.length ∧ re = B ∧
          A[B.length]? = some a ∧ ∀ j, j < B.length → A[j]? = B[j]?)
    ∧ (∀ e re rs, compare_iterators A B = CompareOutcome.expectedLonger e re rs →
        A.length < B.length ∧ re = B.take A.length ∧ rs = A ∧
          B[A.length]? = some e ∧ ∀ j, j < A.length → A[j]? = B[j]?) := by
  refine ⟨?_, ?_, ?_, ?_⟩
  · rw [compare_iterators, compareLoop_pass_iff]
    constructor
    · rintro rfl
      exact ⟨rfl, fun i => rfl⟩
    · rintro ⟨hlen, hget⟩
      exact List.ext_getElem? hget
  · intro e re a rs h
    rw [compare_iterators] at h
    obtain ⟨k, hk1, hk2, hrs, hre, ha, he, hne, hpre⟩ := compareLoop_mismatch_inv h
    simp only [List.nil_append] at hrs hre
    have htake : A.take k = B.take k :=
      take_eq_take_of_pointwise (Nat.le_of_lt hk1) (Nat.le_of_lt hk2) hpre
    have hrsre : rs = re := by rw [hrs, hre, htake]
    refine ⟨k, hk1, hk2, hrs, hre, hrsre, ha, he, hne, hpre, ?_⟩
    intro X Y
    subst hrsre
    rw [compare_iterators, compareLoop_prefix]
    simp only [List.nil_append]
    rw [compareLoop, if_neg hne]
  · intro a re rs h
    rw [compare_iterators] at h
    obtain ⟨h1, h2, h3, h4, h5⟩ := compareLoop_subjectLonger_inv h
    simp only [List.nil_append] at h2 h3
    exact ⟨h1, h2, h3, h4, h5⟩
  · intro e re rs h
    rw [compare_iterators] at h
    obtain ⟨h1, h2, h3, h4, h5⟩ := compareLoop_expectedLonger_inv h
    simp only [List.nil_append] at h2 h3
    exact ⟨h1, h2, h3, h4, h5⟩

/-- C5: `contains` passes iff the expected value equals some element of the
subject, and `does_not_contain` passes exactly when `contains` would fail. -/
theorem contains_iff_mem_and_negation {α : Type u} [DecidableEq α] (S : List α) (v : α) :
    (check_iterator_contains S v true = ContainsOutcome.pass ↔ v ∈ S)
    ∧ (check_iterator_contains S v false = ContainsOutcome.pass ↔
        ¬ check_iterator_contains S v true = ContainsOutcome.pass) := by
  refine ⟨check_contains_pass_iff S v, ?_⟩
  rw [check_not_contains_pass_iff, check_contains_pass_iff]

/-- C6: on an empty subject, `contains` always fails (with the empty actual
list) and `does_not_contain` always passes. -/
theorem contains_empty_subject {α : Type u} [DecidableEq α] (v : α) :
    check_iterator_contains ([] : List α) v true = ContainsOutcome.fail v [] true
    ∧ check_iterator_contains ([] : List α) v true ≠ ContainsOutcome.pass
    ∧ check_iterator_contains ([] : List α) v false = ContainsOutcome.pass := by
  refine ⟨rfl, ?_, rfl⟩
  intro h
  have h1 : check_iterator_contains ([] : List α) v true =
      ContainsOutcome.fail v [] true := rfl
  rw [h1] at h
  exact ContainsOutcome.noConfusion h

/-- C7: `matching_contains` applies the predicate to exactly the first
`min (k + 1) n` elements, in order, where `k` is the index of the first
satisfying element (`List.findIdx`, which is `n` when no element
satisfies); it passes iff some element satisfies the predicate, and
otherwise fails listing the full subject. -/
theorem matching_contains_short_circuit {α : Type u} (p : α → Bool) (l : List α) :
    (mcRun p l []).1 = l.take (l.findIdx p + 1)
    ∧ (mcRun p l []).1.length = min (l.findIdx p + 1) l.length
    ∧ matching_contains p l = (if l.any p then none else some l) := by
  refine ⟨mcRun_fst p l [], ?_, ?_⟩
  · rw [mcRun_fst p l [], List.length_take]
  · rw [matching_contains, mcRun_snd p l []]
    simp

/-- C8: `mapped_contains` applies the mapping function to every element of
the subject (the application trace is the whole subject, so there are
exactly `length` applications), passes iff the expected value is the image
of some subject element, and on failure reports the mapped values. -/
theorem mapped_contains_maps_all {α : Type u} {β : Type v} [DecidableEq β]
    (f : α → β) (l : List α) (m : β) :
    (mapWithTrace f l).1 = l
    ∧ (mapWithTrace f l).2.length = l.length
    ∧ (mapped_contains f l m = none ↔ ∃ x ∈ l, f x = m)
    ∧ ∀ r, mapped_contains f l m = some r → r.1 = m ∧ r.2 = l.map f := by
  refine ⟨mapWithTrace_fst f l, ?_, ?_, ?_⟩
  · rw [mapWithTrace_snd, List.length_map]
  · simp only [mapped_contains, mapWithTrace_snd]
    by_cases hm : m ∈ l.map f
    · have hx := List.mem_map.mp hm
      simp only [if_pos hm]
      simpa using hx
    · refine iff_of_false ?_ ?_
      · intro hh
        rw [if_neg hm] at hh
        exact Option.noConfusion hh
      · rintro ⟨x, hx, hfx⟩
        exact hm (List.mem_map.mpr ⟨x, hx, hfx⟩)
  · intro r hr
    simp only [mapped_contains, mapWithTrace_snd] at hr
    by_cases hm : m ∈ l.map f
    · rw [if_pos hm] at hr
      exact Option.noConfusion hr
    · rw [if_neg hm] at hr
      obtain rfl := Option.some_inj.mp hr
      exact ⟨rfl, rfl⟩

/-- C9: the `contains`/`does_not_contain` scan materializes every subject
element exactly once, in order, with no short-circuit; any failure record
carries the requested value, the whole subject in original order, and the
requested polarity; and the "expected" message reads "iterator to contain
⟨v⟩" or "iterator to not contain ⟨v⟩" according to the polarity. -/
theorem contains_full_scan_and_failure {α : Type u} [DecidableEq α] (S : List α) (v : α) (sc : Bool) :
    (containsLoop v S false []).2 = S
    ∧ (∀ e a b, check_iterator_contains S v sc = ContainsOutcome.fail e a b →
        e = v ∧ a = S ∧ b = sc)
    ∧ (∀ s, panic_unmatched_expected true s = "iterator to contain <" ++ s ++ ">"
        ∧ panic_unmatched_expected false s = "iterator to not contain <" ++ s ++ ">") := by
  refine ⟨by simpa using containsLoop_snd v S false [], ?_, ?_⟩
  · intro e a b h
    exact check_contains_fail_inv S v sc e a b h
  · intro s
    exact ⟨rfl, rfl⟩

/-- C10: the deferred-consumption implementation (indices parked in
`matched_indexes_holder` and merged at the start of the next outer
iteration) computes exactly the same matched values, unmatched values,
consumed index set, and pass/fail outcome as the straightforward greedy
algorithm that consumes each assigned index immediately. -/
theorem deferred_holder_equals_immediate_greedy {α : Type u} [DecidableEq α] (A E : List α) :
    (allOfLoop A ⟨[], [], [], []⟩ E).matched_values =
        (greedyLoop A ⟨[], [], []⟩ E).matched_values
    ∧ (allOfLoop A ⟨[], [], [], []⟩ E).unmatched_values =
        (greedyLoop A ⟨[], [], []⟩ E).unmatched_values
    ∧ (allOfLoop A ⟨[], [], [], []⟩ E).matched_indexes ++
        (allOfLoop A ⟨[], [], [], []⟩ E).matched_indexes_holder =
          (greedyLoop A ⟨[], [], []⟩ E).consumed
    ∧ check_iterator_contains_all_of A E = greedy_contains_all_of A E := by
  obtain ⟨ha1, ha2, ha3⟩ := allOfLoop_eq_assign A E [] [] [] []
  obtain ⟨hg1, hg2, hg3⟩ := greedyLoop_eq_assign A E [] [] []
  simp only [List.nil_append] at ha1 ha2 ha3 hg1 hg2 hg3
  refine ⟨?_, ?_, ?_, ?_⟩
  · rw [ha1, hg1]
  · rw [ha2, hg2]
  · rw [ha3, hg3]
  · rw [check_iterator_contains_all_of, greedy_contains_all_of]
    rw [ha1, ha2, hg1, hg2]

end Claims

end Speculoos
